import Mathlib

/-!
Verification of the morepipes sequence-transform library (src/morepipes.py).

Python iterables are modelled as Lean lists (the finite sequences the claims
quantify over), generators as functions on lists, and the dynamically typed
Python values that some operations inspect at runtime as an inductive `PyVal`
universe.  Fallible operations return `Except String` carrying the Python
exception message.
-/

namespace Morepipes

/-- A model of the Python values morepipes operates on: `None`, integers,
strings, lists and tuples.  Lists and tuples are iterable; `None` and
integers are not; a string is iterable (over its one-character substrings).
Lists are unhashable; `None`, integers and strings are hashable, and a tuple
is hashable when all of its elements are. -/
inductive PyVal where
  | none
  | int (n : Int)
  | str (s : String)
  | list (xs : List PyVal)
  | tuple (xs : List PyVal)

mutual

/-- Python `==` (structural equality) on the `PyVal` universe. -/
def PyVal.beq : PyVal → PyVal → Bool
  | .none, .none => true
  | .int a, .int b => a == b
  | .str a, .str b => a == b
  | .list xs, .list ys => PyVal.beqList xs ys
  | .tuple xs, .tuple ys => PyVal.beqList xs ys
  | _, _ => false

/-- Elementwise Python `==` on sequences of values. -/
def PyVal.beqList : List PyVal → List PyVal → Bool
  | [], [] => true
  | x :: xs, y :: ys => PyVal.beq x y && PyVal.beqList xs ys
  | _, _ => false

end

instance : BEq PyVal := ⟨PyVal.beq⟩

mutual

/-- Whether `hash(v)` succeeds: it does on the `PyVal` universe exactly when this returns
`true`: `None`, integers and strings are hashable, lists are not, and a
tuple is hashable iff all its elements are. -/
def PyVal.hashable : PyVal → Bool
  | .list _ => false
  | .tuple xs => PyVal.hashableList xs
  | _ => true

/-- All elements of the list are hashable. -/
def PyVal.hashableList : List PyVal → Bool
  | [] => true
  | x :: xs => PyVal.hashable x && PyVal.hashableList xs

end

/-- Python `isinstance(item, Iterable)` on the `PyVal` universe: Python lists,
tuples and strings are `collections.abc.Iterable`; `None` and `int` are not.
Note that strings count as iterable — the source of `flatten` checks exactly
`isinstance(item, Iterable)` with no string/bytes exclusion. -/
def PyVal.isIterable : PyVal → Bool
  | .list _ => true
  | .tuple _ => true
  | .str _ => true
  | _ => false

/-- Iterating a Python value: a list or tuple yields its elements, a string
yields its characters as one-character strings (`for x in "ab"` gives
`"a", "b"`).  Only meaningful when `isIterable` holds. -/
def PyVal.iterate : PyVal → List PyVal
  | .list xs => xs
  | .tuple xs => xs
  | .str s => s.toList.map (fun c => PyVal.str (String.mk [c]))
  | _ => []

/-! ## take (src/morepipes.py lines 123-131)

```python
@Pipe
def take(iterable, n):
    it = iter(iterable)
    for _ in range(n):
        try:
            yield next(it)
        except StopIteration:
            return
```

`takeAux` returns both the yielded elements and the number of `next` calls
made on the source iterator (a `next` that raises `StopIteration` is still a
call, but pulls no element). -/

def takeAux (xs : List α) (n : Nat) : List α × Nat :=
  match n, xs with
  | 0, _ => ([], 0)
  | _ + 1, [] => ([], 1)
  | n + 1, x :: rest =>
    let r := takeAux rest n
    (x :: r.1, r.2 + 1)

/-- The sequence `take` yields. -/
def take (xs : List α) (n : Nat) : List α := (takeAux xs n).1

/-- How many times `take` calls `next` on its source iterator. -/
def takeCalls (xs : List α) (n : Nat) : Nat := (takeAux xs n).2

/-! ## collect (src/morepipes.py lines 237-242)

```python
@Pipe
def collect(iterable, typ=list):
    if issubclass(typ, str):
        return typ().join(iterable)
    return typ(iterable)
```

The target types exercised by the repository are `list`, `tuple` and `str`.
`typ().join(iterable)` is `"".join(iterable)`: it concatenates the elements
when all are strings and raises `TypeError` otherwise. -/

inductive PyType where
  | listT
  | tupleT
  | strT
deriving DecidableEq

/-- A collected (materialized) result: a Python `None` (what a pure drain
returns), a list, a tuple, or a joined string. -/
inductive Collected where
  | pyNone
  | pyList (xs : List PyVal)
  | pyTuple (xs : List PyVal)
  | pyStr (s : String)

/-- The underlying strings when every element is a Python `str`, else
`Option.none` (the situation in which `str.join` raises `TypeError`). -/
def strParts : List PyVal → Option (List String)
  | [] => some []
  | .str s :: rest => (strParts rest).map (fun ps => s :: ps)
  | _ :: _ => Option.none

def collect (xs : List PyVal) (typ : PyType) : Except String Collected :=
  match typ with
  | .strT =>
    match strParts xs with
    | some parts => .ok (.pyStr (String.join parts))
    | Option.none => .error "TypeError: sequence item: expected str instance"
  | .listT => .ok (.pyList xs)
  | .tupleT => .ok (.pyTuple xs)

/-- Calling `collect` with no target type given: in the source `typ` defaults to
`list`. -/
def collectDefault (xs : List PyVal) : Except String Collected :=
  collect xs .listT

/-! ## first and find (src/morepipes.py lines 268-270, 283-285)

```python
@Pipe
def first(iterable):
    return next(iter(iterable), None)

@Pipe
def find(iterable, predicate):
    return iterable | where(predicate) | first
```

`where` is `pipe.where`, i.e. `filter(predicate, iterable)`. -/

def first (xs : List PyVal) : PyVal := xs.headD PyVal.none

def find (xs : List PyVal) (predicate : PyVal → Bool) : PyVal :=
  first (xs.filter predicate)

/-! ## flatten (src/morepipes.py lines 149-156)

```python
@Pipe
def flatten(iterable):
    for item in iterable:
        if isinstance(item, Iterable):
            for x in item:
                yield x
        else:
            yield item
```

Note there is no string/bytes exclusion: a `str` element is an `Iterable`
and is therefore flattened into its characters. -/

def flatten : List PyVal → List PyVal
  | [] => []
  | item :: rest =>
    (if item.isIterable then item.iterate else [item]) ++ flatten rest

/-! ## chunks (src/morepipes.py lines 170-178)

```python
@Pipe
def chunks(iterable, n):
    it = iter(iterable)
    chunk = it | take(n) | collect
    while True:
        if len(chunk) < n:
            break
        yield chunk
        chunk = it | take(n) | collect
```

Each round pulls `take n` from the shared iterator (consuming `min n |xs|`
elements) and yields the collected list only when it is full.  For `n = 0`
the Python loop never terminates (it yields `[]` forever); the guard below
restricts the model to `n ≠ 0`, and the theorems assume `0 < n`. -/

def chunks (xs : List α) (n : Nat) : List (List α) :=
  if hn : n = 0 then []
  else if hc : (take xs n).length < n then []
  else take xs n :: chunks (xs.drop n) n
termination_by xs.length
decreasing_by
  simp only [List.length_drop]
  have hle : ∀ (ys : List α) (m : Nat), (take ys m).length ≤ ys.length := by
    intro ys m
    induction ys generalizing m with
    | nil => cases m <;> simp [take, takeAux]
    | cons a rest ih =>
      cases m with
      | zero => simp [take, takeAux]
      | succ k =>
        simp only [take, takeAux, List.length_cons]
        exact Nat.succ_le_succ (ih k)
  have := hle xs n
  omega

/-! ## reduce (src/morepipes.py lines 287-291)

```python
@Pipe
def reduce(iterable, predicate, initial=_SENTINEL):
    if initial is _SENTINEL:
        return _functools.reduce(predicate, iterable)
    return _functools.reduce(predicate, iterable, initial)
```

`initial = Option.none` models the `_SENTINEL` default (no initial value).
`functools.reduce` with no initial raises `TypeError` on an empty iterable
and otherwise left-folds starting from the first element. -/

def reduce (xs : List α) (predicate : α → α → α) (initial : Option α) :
    Except String α :=
  match initial with
  | Option.none =>
    match xs with
    | [] => .error "TypeError: reduce() of empty iterable with no initial value"
    | x :: rest => .ok (rest.foldl predicate x)
  | some init => .ok (xs.foldl predicate init)

/-! ## iall, iany, inone (src/morepipes.py lines 256-266)

```python
@Pipe
def iall(iterable, predicate):
    return all(predicate(x) for x in iterable)

@Pipe
def iany(iterable, predicate):
    return any(predicate(x) for x in iterable)

@Pipe
def inone(iterable, predicate):
    return all((not predicate(x)) for x in iterable)
```
-/

def iall (xs : List α) (predicate : α → Bool) : Bool :=
  xs.all (fun x => predicate x)

def iany (xs : List α) (predicate : α → Bool) : Bool :=
  xs.any (fun x => predicate x)

def inone (xs : List α) (predicate : α → Bool) : Bool :=
  xs.all (fun x => !predicate x)

/-- The `iseven` predicate from the self-tests of the module
(`value % 2 == 0`). -/
def iseven (value : Int) : Bool := value % 2 == 0

/-! ## squeeze (src/morepipes.py lines 193-199)

```python
@Pipe
def squeeze(iterable):
    prev = _SENTINEL
    for item in iterable:
        if item != prev:
            yield item
            prev = item
```

`prev = Option.none` models `_SENTINEL`, a fresh object that compares
unequal to every element. -/

def squeezeGo [DecidableEq α] : List α → Option α → List α
  | [], _ => []
  | item :: rest, prev =>
    if some item ≠ prev then item :: squeezeGo rest (some item)
    else squeezeGo rest prev

def squeeze [DecidableEq α] (xs : List α) : List α :=
  squeezeGo xs Option.none

/-- Follows the words of the claim, not the source: keep exactly the first
element of each maximal run of consecutive equal elements. -/
def squeezeSpec [DecidableEq α] : List α → List α
  | [] => []
  | x :: xs => x :: squeezeSpec (xs.dropWhile (fun y => y == x))
termination_by l => l.length
decreasing_by
  simp only [List.length_cons]
  have hle : ∀ (p : α → Bool) (ys : List α), (ys.dropWhile p).length ≤ ys.length := by
    intro p ys
    induction ys with
    | nil => simp [List.dropWhile]
    | cons a rest ih =>
      rw [List.dropWhile]
      cases p a with
      | true => exact Nat.le_succ_of_le ih
      | false => exact Nat.le_refl _
  exact Nat.lt_succ_of_le (hle _ _)

/-! ## unique (src/morepipes.py lines 184-191)

```python
@Pipe
def unique(iterable):
    seen = set()
    for item in iterable:
        if item not in seen:
            seen.add(item)
            yield item
```

`seen` is modelled as the list of values added so far; set membership and
insertion agree with that model up to the hashability caveat below. -/

def uniqueGo [DecidableEq α] : List α → List α → List α
  | [], _ => []
  | item :: rest, seen =>
    if item ∈ seen then uniqueGo rest seen
    else item :: uniqueGo rest (item :: seen)

def unique [DecidableEq α] (xs : List α) : List α := uniqueGo xs []

/-- Model of `unique` on the `PyVal` universe, tracking the hash requirement of Python:
the membership test `item not in seen` hashes `item` first, so an
unhashable element raises `TypeError` at that point.  Returns the elements
yielded before any such failure, and a flag that is `true` exactly when the
run ended in `TypeError` (Python `==`, i.e. `PyVal.beq`, decides
membership). -/
def uniquePyGo : List PyVal → List PyVal → List PyVal × Bool
  | [], _ => ([], false)
  | item :: rest, seen =>
    if item.hashable = false then ([], true)
    else if seen.contains item then uniquePyGo rest seen
    else
      let r := uniquePyGo rest (item :: seen)
      (item :: r.1, r.2)

def uniquePyRun (xs : List PyVal) : List PyVal × Bool := uniquePyGo xs []

/-! ## _PartialPipe (src/morepipes.py lines 53-65)

```python
class _PartialPipe(Pipe):
    def __call__(self, arg):
        return self.function(arg)

    def __or__(self, other) -> _PartialPipe:
        if isinstance(other, Pipe):
            return type(self)(lambda obj, *args, **kwargs:
                other.function(self.function(obj, *args, **kwargs)))
        if callable(other):
            return type(self)(lambda obj, *args, **kwargs:
                other(self.function(obj, *args, **kwargs)))
        return NotImplemented
```

A partial pipe object holds one attribute, its `function`.  To talk about
mutation we model the Python heap explicitly: the store is the list of
partial-pipe objects allocated so far, and an object identity is an index
into it.  `__or__` on pipes `i` and `j` allocates a new object wrapping the
composed closure — `type(self)(lambda obj: other.function(self.function(obj)))`
— and writes to neither operand. -/

structure PartialPipe (σ : Type u) where
  function : σ → σ

/-- The heap after `store[i] | store[j]`: the new composed pipe is appended
and every existing object is left as it was. -/
def orCompose (store : List (PartialPipe σ)) (i j : Fin store.length) :
    List (PartialPipe σ) :=
  store ++ [⟨fun obj => (store.get j).function ((store.get i).function obj)⟩]

/-- Applying the pipe with identity `k` to a value (`__call__`), as observed
from a given heap; `Option.none` when no such object exists. -/
def applyPipe (store : List (PartialPipe σ)) (k : Nat) (x : σ) : Option σ :=
  (store[k]?).map (fun p => p.function x)

/-- A concrete example heap with two partial pipes, used to instantiate the
immutability theorem. -/
def sampleStore : List (PartialPipe Nat) :=
  [⟨fun n => n + 1⟩, ⟨fun n => n * 2⟩]

/-- Identity of the first pipe in `sampleStore`. -/
def sampleI : Fin sampleStore.length := ⟨0, by decide⟩

/-- Identity of the second pipe in `sampleStore`. -/
def sampleJ : Fin sampleStore.length := ⟨1, by decide⟩

/-! ## Helper lemmas -/

theorem take_eq_listTake (xs : List α) (n : Nat) : take xs n = xs.take n := by
  induction xs generalizing n with
  | nil => cases n <;> rfl
  | cons x rest ih =>
    cases n with
    | zero => rfl
    | succ m =>
      simp only [take, takeAux, List.take]
      exact congrArg (x :: ·) (ih m)

theorem takeCalls_le (xs : List α) (n : Nat) : takeCalls xs n ≤ n := by
  induction xs generalizing n with
  | nil =>
    cases n with
    | zero => exact Nat.le_refl 0
    | succ m => simp [takeCalls, takeAux]
  | cons x rest ih =>
    cases n with
    | zero => exact Nat.le_refl 0
    | succ m =>
      simp only [takeCalls, takeAux]
      exact Nat.succ_le_succ (ih m)

theorem strParts_map (parts : List String) :
    strParts (parts.map PyVal.str) = some parts := by
  induction parts with
  | nil => rfl
  | cons s rest ih => simp [strParts, ih]

/-! ## Claim theorems -/

/-- C4: for every finite sequence `s` and every `n ≥ 0`, `take(s, n)` yields
exactly `min(length(s), n)` elements and makes at most `n` calls to `next`
on the source iterator, so it never reads past what is needed. -/
theorem take_claim : ∀ (α : Type) (xs : List α) (n : Nat),
    (take xs n).length = min xs.length n ∧ takeCalls xs n ≤ n :=
  fun _ xs n =>
    ⟨by rw [take_eq_listTake, List.length_take, Nat.min_comm], takeCalls_le xs n⟩

/-- C6: `reduce` with no initial value raises `TypeError` on an empty input;
`reduce` with an initial value `z` returns `z` on an empty input. -/
theorem reduce_empty_claim : ∀ (α : Type) (f : α → α → α) (z : α),
    reduce ([] : List α) f Option.none
      = Except.error "TypeError: reduce() of empty iterable with no initial value" ∧
    reduce ([] : List α) f (some z) = Except.ok z :=
  fun _ _ _ => ⟨rfl, rfl⟩

/-- C7: `inone(s, p)` is true iff no element of `s` satisfies `p`, which is
exactly `iall(s, not p)`; in particular `inone([1,3,5], iseven) = true` and
`inone([0,2,4], iseven) = false`. -/
theorem inone_claim :
    (∀ (α : Type) (xs : List α) (p : α → Bool),
      (inone xs p = true ↔ ∀ x ∈ xs, p x = false) ∧
      inone xs p = iall xs (fun x => !p x)) ∧
    inone [1, 3, 5] iseven = true ∧ inone [0, 2, 4] iseven = false := by
  refine ⟨fun α xs p => ⟨?_, rfl⟩, by decide, by decide⟩
  simp [inone, List.all_eq_true]

theorem inone_claim_witness :
    inone [1, 3, 5] iseven = true ∧
    (∀ x ∈ ([1, 3, 5] : List Int), iseven x = false) ∧
    inone ([1, 3, 5] : List Int) iseven = iall [1, 3, 5] (fun x => !iseven x) :=
  ⟨inone_claim.2.1,
   ((inone_claim.1 Int [1, 3, 5] iseven).1).mp inone_claim.2.1,
   (inone_claim.1 Int [1, 3, 5] iseven).2⟩

/-- C1 counterexample: `collect` with no target type does not return an
unmaterialized "drained" result (Python `None`); on the input `[0]` it
returns the materialized list `[0]`. -/
theorem collect_default_counterexample :
    collectDefault [PyVal.int 0] = Except.ok (Collected.pyList [PyVal.int 0]) ∧
    collectDefault [PyVal.int 0] ≠ Except.ok Collected.pyNone := by
  refine ⟨rfl, ?_⟩
  intro h
  simp [collectDefault, collect] at h

/-- C1 (amended): `collect` with no target type materializes the full
sequence into a list (the default target type is `list`); with a text-like
target type it joins the elements as text; with any other target type it
materializes the full sequence into that container type. -/
theorem collect_claim :
    (∀ xs : List PyVal, collectDefault xs = Except.ok (Collected.pyList xs)) ∧
    (∀ parts : List String,
      collect (parts.map PyVal.str) PyType.strT
        = Except.ok (Collected.pyStr (String.join parts))) ∧
    (∀ xs : List PyVal, collect xs PyType.listT = Except.ok (Collected.pyList xs)) ∧
    (∀ xs : List PyVal, collect xs PyType.tupleT = Except.ok (Collected.pyTuple xs)) := by
  refine ⟨fun xs => rfl, fun parts => ?_, fun xs => rfl, fun xs => rfl⟩
  simp [collect, strParts_map]

/-- C2 counterexample: a string element is `isinstance(_, Iterable)`, so
`flatten` splits it into its characters instead of yielding it unchanged:
`flatten(["ab"])` is `["a", "b"]`, not `["ab"]`. -/
theorem flatten_string_counterexample :
    flatten [PyVal.str "ab"] = [PyVal.str "a", PyVal.str "b"] ∧
    flatten [PyVal.str "ab"] ≠ [PyVal.str "ab"] := by
  refine ⟨rfl, ?_⟩
  intro h
  simp [flatten, PyVal.isIterable, PyVal.iterate] at h

/-- C2 (amended): `flatten` yields, for each element that is iterable —
including text values such as strings, which are split into their
characters — its sub-elements one level deep, and yields each non-iterable
element unchanged. -/
theorem flatten_claim :
    (∀ xs ys : List PyVal, flatten (xs ++ ys) = flatten xs ++ flatten ys) ∧
    (∀ v : PyVal, v.isIterable = true → flatten [v] = v.iterate) ∧
    (∀ v : PyVal, v.isIterable = false → flatten [v] = [v]) ∧
    flatten [PyVal.list [PyVal.int 1, PyVal.int 2], PyVal.int 3]
      = [PyVal.int 1, PyVal.int 2, PyVal.int 3] ∧
    flatten [PyVal.str "ab"] = [PyVal.str "a", PyVal.str "b"] := by
  refine ⟨fun xs ys => ?_, fun v hv => by simp [flatten, hv],
    fun v hv => by simp [flatten, hv], rfl, rfl⟩
  induction xs with
  | nil => rfl
  | cons x rest ih => simp [flatten, ih]

theorem flatten_claim_witness :
    (PyVal.str "ab").isIterable = true ∧
    flatten [PyVal.str "ab"] = (PyVal.str "ab").iterate ∧
    (PyVal.int 3).isIterable = false ∧
    flatten [PyVal.int 3] = [PyVal.int 3] :=
  ⟨rfl, flatten_claim.2.1 _ rfl, rfl, flatten_claim.2.2.1 _ rfl⟩

/-- C3 counterexample: the absent-value result of `first`/`find` is Python
`None`, which is not distinct from valid element values: on the sequence
`[None]` the "found" result and the "absent" result coincide. -/
theorem first_sentinel_counterexample :
    first [PyVal.none] = PyVal.none ∧
    first ([] : List PyVal) = PyVal.none ∧
    PyVal.none ∈ [PyVal.none] ∧
    find [PyVal.none] (fun _ => true) = find [PyVal.none] (fun _ => false) :=
  ⟨rfl, rfl, List.mem_singleton.mpr rfl, rfl⟩

/-- C3 (amended): `first` on an empty sequence and `find` with no matching
element never fail; each returns Python `None` — but `None` is itself a
valid element value, so an absent result is not distinguishable from an
element equal to `None`. -/
theorem first_find_claim :
    first ([] : List PyVal) = PyVal.none ∧
    (∀ (xs : List PyVal) (p : PyVal → Bool),
      (∀ x ∈ xs, p x = false) → find xs p = PyVal.none) ∧
    (∀ (xs : List PyVal) (p : PyVal → Bool), find xs p = first (xs.filter p)) := by
  refine ⟨rfl, fun xs p h => ?_, fun xs p => rfl⟩
  have : xs.filter p = [] := List.filter_eq_nil_iff.mpr (fun x hx => by simp [h x hx])
  simp [find, this, first]

theorem first_find_claim_witness :
    (∀ x ∈ [PyVal.int 1, PyVal.int 3], (fun v : PyVal => false) x = false) ∧
    find [PyVal.int 1, PyVal.int 3] (fun _ => false) = PyVal.none :=
  ⟨fun x _ => rfl, first_find_claim.2.1 _ _ (fun x _ => rfl)⟩

/-! ### chunks (C5) -/

theorem chunks_eq_nil {n : Nat} (hn : 0 < n) (xs : List α) (h : xs.length < n) :
    chunks xs n = [] := by
  rw [chunks.eq_def]
  rw [dif_neg (by omega : ¬ n = 0)]
  have hc : (take xs n).length < n := by
    rw [take_eq_listTake, List.length_take]
    omega
  rw [dif_pos hc]

theorem chunks_eq_cons {n : Nat} (hn : 0 < n) (xs : List α) (h : n ≤ xs.length) :
    chunks xs n = xs.take n :: chunks (xs.drop n) n := by
  rw [chunks.eq_def]
  rw [dif_neg (by omega : ¬ n = 0)]
  have hc : ¬ (take xs n).length < n := by
    rw [take_eq_listTake, List.length_take]
    omega
  rw [dif_neg hc, take_eq_listTake]

theorem chunks_parts (xs : List α) (n : Nat) (hn : 0 < n) :
    (∀ c ∈ chunks xs n, c.length = n) ∧
    (chunks xs n).flatten = xs.take (xs.length / n * n) ∧
    (chunks xs n).length = xs.length / n := by
  by_cases h : xs.length < n
  · rw [chunks_eq_nil hn xs h]
    have h0 : xs.length / n = 0 := Nat.div_eq_of_lt h
    simp [h0]
  · push_neg at h
    rw [chunks_eq_cons hn xs h]
    have ih := chunks_parts (xs.drop n) n hn
    have hdrop : (xs.drop n).length = xs.length - n := List.length_drop n xs
    have hdiv : xs.length / n = (xs.length - n) / n + 1 := Nat.div_eq_sub_div hn h
    refine ⟨?_, ?_, ?_⟩
    · intro c hc
      rcases List.mem_cons.mp hc with h1 | h1
      · rw [h1, List.length_take]
        omega
      · exact ih.1 c h1
    · rw [List.flatten_cons, ih.2.1, hdrop, hdiv, Nat.add_mul, Nat.one_mul,
        Nat.add_comm ((xs.length - n) / n * n) n, List.take_add]
    · rw [List.length_cons, ih.2.2, hdrop, hdiv]
termination_by xs.length
decreasing_by
  simp only [List.length_drop]
  omega

/-- C5: for every finite sequence and every chunk size `n ≥ 1`, `chunks`
yields the elements grouped in order into groups of exactly `n` elements,
dropping the final partial group: every yielded group has length `n`, the
groups concatenated are the first `(length(s) / n) * n` elements of `s`, and
there are `length(s) / n` groups; in particular
`chunks([0..6], 3) = [[0,1,2],[3,4,5]]`. -/
theorem chunks_claim :
    (∀ (α : Type) (xs : List α) (n : Nat), 0 < n →
      (∀ c ∈ chunks xs n, c.length = n) ∧
      (chunks xs n).flatten = xs.take (xs.length / n * n) ∧
      (chunks xs n).length = xs.length / n) ∧
    chunks [0, 1, 2, 3, 4, 5, 6] 3 = [[0, 1, 2], [3, 4, 5]] := by
  refine ⟨fun α xs n hn => chunks_parts xs n hn, ?_⟩
  rw [chunks_eq_cons (by omega) _ (by simp),
    chunks_eq_cons (by omega) _ (by simp),
    chunks_eq_nil (by omega) _ (by simp)]
  rfl

/-! ### squeeze and unique (C8) -/

theorem squeezeGo_some [DecidableEq α] (xs : List α) :
    ∀ x : α, squeezeGo xs (some x) = squeezeSpec (xs.dropWhile (fun y => y == x)) := by
  induction xs with
  | nil =>
    intro x
    simp [squeezeGo, List.dropWhile, squeezeSpec]
  | cons y rest ih =>
    intro x
    by_cases h : y = x
    · subst h
      simp only [squeezeGo]
      rw [if_neg (by simp), List.dropWhile_cons, if_pos (by simp)]
      exact ih y
    · simp only [squeezeGo]
      rw [if_pos (by simp [h]), List.dropWhile_cons, if_neg (by simp [h]),
        squeezeSpec, ih y]

theorem squeeze_eq_squeezeSpec [DecidableEq α] (xs : List α) :
    squeeze xs = squeezeSpec xs := by
  cases xs with
  | nil => simp [squeeze, squeezeGo, squeezeSpec]
  | cons x rest =>
    simp only [squeeze, squeezeGo]
    rw [if_pos (by simp), squeezeGo_some rest x, squeezeSpec]

/-- C8: `squeeze` collapses each maximal run of consecutive equal elements
into a single element — it equals the keep-the-first-element-of-each-run
function `squeezeSpec`, so only adjacent repeats are collapsed and
non-adjacent duplicates are kept; in particular `squeeze("Hello woooorld!")`
yields `"Helo world!"`, and `unique` applied to that yields `"Helo wrd!"`. -/
theorem squeeze_claim :
    (∀ (α : Type) [inst : DecidableEq α] (xs : List α),
      squeeze xs = squeezeSpec xs) ∧
    squeeze "Hello woooorld!".toList = "Helo world!".toList ∧
    unique "Helo world!".toList = "Helo wrd!".toList :=
  ⟨fun _ _ xs => squeeze_eq_squeezeSpec xs, by decide, by decide⟩

/-! ### _PartialPipe immutability (C9) -/

/-- C9: composing two partial chains with `|` produces a new chain and
leaves every existing pipe object — in particular both operands — unchanged:
the new heap extends the old by exactly one object, every old identity still
resolves to the same object, applying either operand afterward behaves
exactly as before, and the new object applies the left operand then the
right. -/
theorem pipeOr_claim :
    ∀ (σ : Type) (store : List (PartialPipe σ)) (i j : Fin store.length),
      (orCompose store i j).length = store.length + 1 ∧
      (∀ k : Nat, k < store.length → (orCompose store i j)[k]? = store[k]?) ∧
      (∀ x : σ, applyPipe (orCompose store i j) i.val x = applyPipe store i.val x) ∧
      (∀ x : σ, applyPipe (orCompose store i j) j.val x = applyPipe store j.val x) ∧
      (∀ x : σ, applyPipe (orCompose store i j) store.length x
        = some ((store.get j).function ((store.get i).function x))) := by
  intro σ store i j
  have hpres : ∀ k : Nat, k < store.length →
      (orCompose store i j)[k]? = store[k]? := by
    intro k hk
    unfold orCompose
    rw [List.getElem?_append, if_pos hk]
  refine ⟨by simp [orCompose], hpres, ?_, ?_, ?_⟩
  · intro x
    unfold applyPipe
    rw [hpres i.val i.isLt]
  · intro x
    unfold applyPipe
    rw [hpres j.val j.isLt]
  · intro x
    unfold applyPipe orCompose
    rw [List.getElem?_append_right (Nat.le_refl _)]
    simp

theorem pipeOr_claim_witness :
    (0 : Nat) < sampleStore.length ∧
    (orCompose sampleStore sampleI sampleJ)[0]? = sampleStore[0]? ∧
    (∀ x : Nat, applyPipe (orCompose sampleStore sampleI sampleJ) 0 x
      = applyPipe sampleStore 0 x) :=
  ⟨by decide,
   (pipeOr_claim Nat sampleStore sampleI sampleJ).2.1 0 (by decide),
   (pipeOr_claim Nat sampleStore sampleI sampleJ).2.2.1⟩

/-! ### unique and hashability (C10) -/

theorem uniquePyGo_unhashable (u : PyVal) (hu : u.hashable = false)
    (post : List PyVal) :
    ∀ (pre seen : List PyVal), PyVal.hashableList pre = true →
      uniquePyGo (pre ++ u :: post) seen = ((uniquePyGo pre seen).1, true) ∧
      (uniquePyGo pre seen).2 = false := by
  intro pre
  induction pre with
  | nil =>
    intro seen _
    refine ⟨?_, rfl⟩
    simp only [List.nil_append, uniquePyGo]
    rw [if_pos hu]
  | cons x rest ih =>
    intro seen hall
    have hx : ¬ x.hashable = false := by
      simp only [PyVal.hashableList, Bool.and_eq_true] at hall
      simp [hall.1]
    have hrest : PyVal.hashableList rest = true := by
      simp only [PyVal.hashableList, Bool.and_eq_true] at hall
      exact hall.2
    by_cases hmem : seen.contains x = true
    · constructor
      · simp only [List.cons_append, uniquePyGo]
        rw [if_neg hx, if_pos hmem, if_neg hx, if_pos hmem]
        exact (ih seen hrest).1
      · simp only [uniquePyGo]
        rw [if_neg hx, if_pos hmem]
        exact (ih seen hrest).2
    · constructor
      · simp only [List.cons_append, uniquePyGo]
        rw [if_neg hx, if_neg hmem, if_neg hx, if_neg hmem]
        have h1 := (ih (x :: seen) hrest).1
        simp only [List.append_eq, h1]
      · simp only [uniquePyGo]
        rw [if_neg hx, if_neg hmem]
        exact (ih (x :: seen) hrest).2

/-- C10: `unique` tracks already-emitted elements with a hash set and so
requires hashable elements: pulling the first unhashable element (such as a
list) from its output raises `TypeError`, and the elements yielded before
that point are exactly the elements `unique` yields on the preceding
prefix, unaffected by the failure. -/
theorem unique_unhashable_claim :
    ∀ (pre : List PyVal) (u : PyVal) (post : List PyVal),
      PyVal.hashableList pre = true → u.hashable = false →
      uniquePyRun (pre ++ u :: post) = ((uniquePyRun pre).1, true) ∧
      (uniquePyRun pre).2 = false :=
  fun pre u post hpre hu =>
    ⟨(uniquePyGo_unhashable u hu post pre [] hpre).1,
     (uniquePyGo_unhashable u hu post pre [] hpre).2⟩

theorem unique_unhashable_claim_witness :
    PyVal.hashableList [PyVal.int 1, PyVal.int 1] = true ∧
    (PyVal.list []).hashable = false ∧
    uniquePyRun ([PyVal.int 1, PyVal.int 1] ++ PyVal.list [] :: [PyVal.int 2])
      = ((uniquePyRun [PyVal.int 1, PyVal.int 1]).1, true) ∧
    (uniquePyRun [PyVal.int 1, PyVal.int 1]).2 = false :=
  ⟨by simp [PyVal.hashableList, PyVal.hashable],
   by simp [PyVal.hashable],
   (unique_unhashable_claim [PyVal.int 1, PyVal.int 1] (PyVal.list []) [PyVal.int 2]
     (by simp [PyVal.hashableList, PyVal.hashable])
     (by simp [PyVal.hashable])).1,
   (unique_unhashable_claim [PyVal.int 1, PyVal.int 1] (PyVal.list []) [PyVal.int 2]
     (by simp [PyVal.hashableList, PyVal.hashable])
     (by simp [PyVal.hashable])).2⟩

theorem chunks_claim_witness :
    0 < 3 ∧
    (∀ c ∈ chunks [0, 1, 2, 3, 4, 5, 6] 3, c.length = 3) ∧
    (chunks [0, 1, 2, 3, 4, 5, 6] 3).flatten
      = [0, 1, 2, 3, 4, 5, 6].take ([0, 1, 2, 3, 4, 5, 6].length / 3 * 3) ∧
    (chunks [0, 1, 2, 3, 4, 5, 6] 3).length = [0, 1, 2, 3, 4, 5, 6].length / 3 :=
  ⟨by omega, chunks_claim.1 Nat [0, 1, 2, 3, 4, 5, 6] 3 (by omega)⟩

end Morepipes
